import Mathlib

/-!
Shallow embedding of the plagiarism-detection core of `src/app.py`
(functions `winnowing_fingerprint`, `compare_documents` and the pairwise
loop of `detect_plagiarism`).

Modelling conventions:
* Python `str` is modelled as `String` / `List Char`; the normalisation
  steps (`str.lower`, the regexes `[^a-z\s]` and `\s+`, `str.strip`,
  `str.replace`) are modelled over ASCII character classes.
* `hashlib.sha256(...).hexdigest()` is implemented concretely below as
  SHA-256 over `Nat` arithmetic taken modulo `2 ^ 32`.
* Python floats are modelled as exact rationals `ℚ` (all arithmetic the
  code performs on similarity scores is a single division and product).
* A raised Python exception (`ValueError` from `min([])`, reachable only
  for `window_size < 1`) is modelled by `Option`: `none` is the raised
  exception, `some` a normal return.
* HTTP transport, PDF extraction, SQLite persistence and session-id
  generation are I/O collaborators outside the algorithmic core and are
  not modelled; `detect_plagiarism` is embedded as its pairwise
  comparison loop producing the list of result records.
-/

namespace WinnowApp

/-! ## SHA-256 (`hashlib.sha256(...).hexdigest()`) -/

/-- Truncation to a 32-bit word. -/
def w32 (n : Nat) : Nat := n % 4294967296

/-- Right rotation of a 32-bit word. -/
def rotr32 (n x : Nat) : Nat := ((x >>> n) ||| (x <<< (32 - n))) % 4294967296

/-- SHA-256 `Ch` function. -/
def shaCh (e f g : Nat) : Nat := (e &&& f) ^^^ ((e ^^^ 4294967295) &&& g)

/-- SHA-256 `Maj` function. -/
def shaMaj (a b c : Nat) : Nat := (a &&& b) ^^^ (a &&& c) ^^^ (b &&& c)

/-- SHA-256 big sigma-0. -/
def bigS0 (x : Nat) : Nat := rotr32 2 x ^^^ rotr32 13 x ^^^ rotr32 22 x

/-- SHA-256 big sigma-1. -/
def bigS1 (x : Nat) : Nat := rotr32 6 x ^^^ rotr32 11 x ^^^ rotr32 25 x

/-- SHA-256 small sigma-0. -/
def smallS0 (x : Nat) : Nat := rotr32 7 x ^^^ rotr32 18 x ^^^ (x >>> 3)

/-- SHA-256 small sigma-1. -/
def smallS1 (x : Nat) : Nat := rotr32 17 x ^^^ rotr32 19 x ^^^ (x >>> 10)

/-- The 64 SHA-256 round constants (FIPS 180-4, written in decimal). -/
def shaK : List Nat :=
  [1116352408, 1899447441, 3049323471, 3921009573, 961987163, 1508970993,
   2453635748, 2870763221, 3624381080, 310598401, 607225278, 1426881987,
   1925078388, 2162078206, 2614888103, 3248222580, 3835390401, 4022224774,
   264347078, 604807628, 770255983, 1249150122, 1555081692, 1996064986,
   2554220882, 2821834349, 2952996808, 3210313671, 3336571891, 3584528711,
   113926993, 338241895, 666307205, 773529912, 1294757372, 1396182291,
   1695183700, 1986661051, 2177026350, 2456956037, 2730485921, 2820302411,
   3259730800, 3345764771, 3516065817, 3600352804, 4094571909, 275423344,
   430227734, 506948616, 659060556, 883997877, 958139571, 1322822218,
   1537002063, 1747873779, 1955562222, 2024104815, 2227730452, 2361852424,
   2428436474, 2756734187, 3204031479, 3329325298]

/-- The SHA-256 initial hash state (FIPS 180-4, written in decimal). -/
def shaH0 : List Nat :=
  [1779033703, 3144134277, 1013904242, 2773480762,
   1359893119, 2600822924, 528734635, 1541459225]

/-- UTF-8 encoding of one character (`str.encode('utf-8')`). -/
def utf8EncodeChar (c : Char) : List Nat :=
  let n := c.toNat
  if n < 0x80 then [n]
  else if n < 0x800 then
    [0xC0 ||| (n >>> 6), 0x80 ||| (n &&& 0x3F)]
  else if n < 0x10000 then
    [0xE0 ||| (n >>> 12), 0x80 ||| ((n >>> 6) &&& 0x3F), 0x80 ||| (n &&& 0x3F)]
  else
    [0xF0 ||| (n >>> 18), 0x80 ||| ((n >>> 12) &&& 0x3F), 0x80 ||| ((n >>> 6) &&& 0x3F),
     0x80 ||| (n &&& 0x3F)]

/-- UTF-8 encoding of a character sequence. -/
def utf8Bytes (cs : List Char) : List Nat := cs.flatMap utf8EncodeChar

/-- Big-endian byte representation of `n` in `numBytes` bytes. -/
def beBytes (numBytes n : Nat) : List Nat :=
  (List.range numBytes).map (fun i => (n >>> (8 * (numBytes - 1 - i))) &&& 255)

/-- SHA-256 message padding: append `0x80`, zero bytes, and the 64-bit
big-endian bit length, reaching a multiple of 64 bytes. -/
def sha256Pad (msg : List Nat) : List Nat :=
  msg ++ 0x80 :: List.replicate ((119 - msg.length % 64) % 64) 0 ++ beBytes 8 (8 * msg.length)

/-- The sixteen 32-bit big-endian words of one 64-byte block. -/
def blockWords (block : List Nat) : List Nat :=
  (List.range 16).map (fun j =>
    (block.getD (4 * j) 0) <<< 24 ||| (block.getD (4 * j + 1) 0) <<< 16 |||
    (block.getD (4 * j + 2) 0) <<< 8 ||| block.getD (4 * j + 3) 0)

/-- Extension of the 16 block words to the 64-entry message schedule. -/
def extendWords (ws : List Nat) : List Nat :=
  (List.range 48).foldl (fun acc _ =>
    let t := acc.length
    acc ++ [w32 (smallS1 (acc.getD (t - 2) 0) + acc.getD (t - 7) 0 +
                 smallS0 (acc.getD (t - 15) 0) + acc.getD (t - 16) 0)]) ws

/-- One SHA-256 compression round step on the 8-word working state. -/
def shaRound (s : List Nat) (kw : Nat × Nat) : List Nat :=
  match s with
  | [a, b, c, d, e, f, g, h] =>
    let t1 := w32 (h + bigS1 e + shaCh e f g + kw.1 + kw.2)
    let t2 := w32 (bigS0 a + shaMaj a b c)
    [w32 (t1 + t2), a, b, c, w32 (d + t1), e, f, g]
  | other => other

/-- SHA-256 compression of one 64-byte block into the hash state. -/
def shaCompress (st : List Nat) (block : List Nat) : List Nat :=
  let ws := extendWords (blockWords block)
  let final := (shaK.zip ws).foldl shaRound st
  (st.zip final).map (fun p => w32 (p.1 + p.2))

/-- The eight 32-bit words of the SHA-256 digest of a byte sequence. -/
def sha256Words (msg : List Nat) : List Nat :=
  let padded := sha256Pad msg
  (List.range (padded.length / 64)).foldl
    (fun st i => shaCompress st ((padded.drop (64 * i)).take 64)) shaH0

/-- Lowercase hexadecimal digit for a value below 16. -/
def hexDigitChar (n : Nat) : Char :=
  if n < 10 then Char.ofNat (48 + n) else Char.ofNat (87 + n)

/-- Eight lowercase hex digits of a 32-bit word, most significant first. -/
def wordHex (x : Nat) : List Char :=
  (List.range 8).map (fun i => hexDigitChar ((x >>> (4 * (7 - i))) &&& 15))

/-- `hashlib.sha256(s.encode('utf-8')).hexdigest()`: the 64-character
lowercase hex digest of the UTF-8 encoding of a character sequence. -/
def sha256hex (cs : List Char) : String :=
  String.mk ((sha256Words (utf8Bytes cs)).flatMap wordHex)

/-! ## Normalisation (`winnowing_fingerprint`, lines 55-59 of `src/app.py`) -/

/-- `str.lower()` restricted to ASCII: map each uppercase ASCII letter to
its lowercase counterpart. -/
def pyLower (c : Char) : Char :=
  if 65 ≤ c.toNat && c.toNat ≤ 90 then Char.ofNat (c.toNat + 32) else c

/-- Membership in the regex class `[a-z]`. -/
def isLowerAlpha (c : Char) : Bool := 97 ≤ c.toNat && c.toNat ≤ 122

/-- Membership in the regex class `\s` (ASCII whitespace: space, tab,
newline, carriage return, vertical tab, form feed). -/
def isPySpace (c : Char) : Bool :=
  c.toNat == 32 || c.toNat == 9 || c.toNat == 10 || c.toNat == 13 ||
  c.toNat == 11 || c.toNat == 12

/-- `re.sub(r'\s+', ' ', text)`: replace every maximal run of whitespace
characters by a single space. -/
def collapseWs : List Char → List Char
  | [] => []
  | [c] => if isPySpace c then [' '] else [c]
  | c1 :: c2 :: cs =>
    if isPySpace c1 then
      if isPySpace c2 then collapseWs (c2 :: cs)
      else ' ' :: collapseWs (c2 :: cs)
    else c1 :: collapseWs (c2 :: cs)

/-- `str.strip()`: drop whitespace from both ends. -/
def pyStrip (l : List Char) : List Char :=
  ((l.dropWhile isPySpace).reverse.dropWhile isPySpace).reverse

/-- The normalised dense string `text_for_shingles` of
`winnowing_fingerprint`: lowercase, keep only `[a-z\s]`, collapse
whitespace runs and strip, then remove the remaining spaces. -/
def denseOf (text : String) : List Char :=
  (pyStrip (collapseWs
    ((text.data.map pyLower).filter (fun c => isLowerAlpha c || isPySpace c)))).filter
    (fun c => !(c == ' '))

/-! ## Shingling and winnowing (`winnowing_fingerprint`, lines 61-75) -/

/-- The length-`k` substrings of `s` at every start offset, i.e.
`[text[i:i+k] for i in range(len(text) - k + 1)]`. -/
def shinglesOf (s : List Char) (k : Nat) : List (List Char) :=
  (List.range (s.length + 1 - k)).map (fun i => (s.drop i).take k)

/-- The slice `hashes[i:i+w]`. -/
def windowOf (hs : List String) (i w : Nat) : List String :=
  (hs.drop i).take w

/-- Python `<` on two character sequences: lexicographic comparison by
code point (a proper prefix is smaller). -/
def pyStrLtList : List Char → List Char → Bool
  | [], [] => false
  | [], _ :: _ => true
  | _ :: _, [] => false
  | a :: as, b :: bs =>
    if a.toNat < b.toNat then true
    else if b.toNat < a.toNat then false
    else pyStrLtList as bs

/-- Python `<` on strings. -/
def pyStrLt (a b : String) : Bool := pyStrLtList a.data b.data

/-- Python `min` over a list of strings (lexicographic on code points;
the first minimal element is kept on ties, which for strings means the
unique minimal value): `none` models the `ValueError` raised on an
empty sequence. -/
def pyMin (l : List String) : Option String :=
  match l with
  | [] => none
  | x :: xs => some (xs.foldl (fun best item => if pyStrLt item best then item else best) x)

/-- The local `hashes` list of `winnowing_fingerprint`: the SHA-256 hex
digest of each shingle of the normalised dense string. -/
def hashesOf (text : String) (k : Nat) : List String :=
  (shinglesOf (denseOf text) k).map sha256hex

/-- `winnowing_fingerprint(text, k, window_size)`: normalise, build the
`k`-shingles, hash each shingle with SHA-256, then for each window
offset append the minimum hash of the window. The result is the list of
selected hashes (`none` models the uncaught `ValueError` reachable when
`window_size = 0` makes a window empty). -/
def winnowing_fingerprint (text : String) (k window_size : Nat) : Option (List String) :=
  if (denseOf text).length < k then some []
  else
    (List.range ((hashesOf text k).length + 1 - window_size)).mapM
      (fun i => pyMin (windowOf (hashesOf text k) i window_size))

/-! ## Comparison (`compare_documents`, lines 77-93) -/

/-- `compare_documents(doc1, doc2, k, window_size)`: fingerprint both
texts, convert the fingerprint lists to sets, return `0.0` when either
set is empty, else `|F1 ∩ F2| / |F1 ∪ F2| * 100` as an exact rational. -/
def compare_documents (doc1 doc2 : String) (k window_size : Nat) : Option ℚ :=
  match winnowing_fingerprint doc1 k window_size, winnowing_fingerprint doc2 k window_size with
  | some f1, some f2 =>
    if f1.toFinset = ∅ ∨ f2.toFinset = ∅ then some 0
    else some (((f1.toFinset ∩ f2.toFinset).card : ℚ) / ((f1.toFinset ∪ f2.toFinset).card : ℚ) * 100)
  | _, _ => none

/-! ## Batch comparison (`detect_plagiarism`, lines 119-147) -/

/-- A document as submitted to `/plagiarism`: a name and its text. -/
structure Document where
  name : String
  text : String
deriving DecidableEq

/-- One entry of the `similarities` list built by `detect_plagiarism`
(the session id and database write are I/O boundary concerns and are not
part of the record). -/
structure PairResult where
  doc1_index : Nat
  doc2_index : Nat
  doc1_name : String
  doc2_name : String
  similarity : ℚ
deriving DecidableEq

/-- The index pairs visited by the nested loops
`for i in range(n): for j in range(i + 1, n):`. -/
def pairIndices (n : Nat) : List (Nat × Nat) :=
  (List.range n).flatMap (fun i => (List.range' (i + 1) (n - (i + 1))).map (fun j => (i, j)))

/-- The body of the `detect_plagiarism` loop for one index pair: look up
the two documents, compare them, and build the result record. -/
def detectBody (documents : List Document) (k window_size : Nat) (p : Nat × Nat) :
    Option PairResult :=
  match documents[p.1]?, documents[p.2]? with
  | some doc1, some doc2 =>
    (compare_documents doc1.text doc2.text k window_size).map
      (fun s => { doc1_index := p.1, doc2_index := p.2, doc1_name := doc1.name,
                  doc2_name := doc2.name, similarity := s })
  | _, _ => none

/-- The pairwise loop of `detect_plagiarism`: one result record per pair
`(i, j)` with `i < j`, in loop order. -/
def detect_plagiarism (documents : List Document) (k window_size : Nat) :
    Option (List PairResult) :=
  (pairIndices documents.length).mapM (detectBody documents k window_size)

/-- Total companion of `pyMin`: the value `min` returns on a non-empty
list (and a junk value on `[]`, where `pyMin` raises). -/
def pyMinD (l : List String) : String :=
  match l with
  | [] => ""
  | x :: xs => xs.foldl (fun best item => if pyStrLt item best then item else best) x

/-- The fingerprint list `winnowing_fingerprint` returns whenever it does
not raise: each entry is the `pyMinD`-minimum of the corresponding
window of shingle hashes. -/
def fingerprintList (text : String) (k w : Nat) : List String :=
  if (denseOf text).length < k then []
  else
    (List.range ((hashesOf text k).length + 1 - w)).map
      (fun i => pyMinD (windowOf (hashesOf text k) i w))

/-- Claim-side notion for C9: the "underlying letters" of a text, i.e.
its character sequence case-folded and restricted to letters. Two texts
related by case changes and by insertion/removal of punctuation, digits
and whitespace have the same underlying letters. -/
def underlyingLetters (text : String) : List Char :=
  (text.data.map pyLower).filter isLowerAlpha

/-! ## Helper lemmas: Python `min` as a fold -/

theorem pyMin_eq_some {l : List String} (h : l ≠ []) : pyMin l = some (pyMinD l) := by
  cases l with
  | nil => exact absurd rfl h
  | cons x xs => rfl

theorem pyStrLtList_irrefl (l : List Char) : pyStrLtList l l = false := by
  induction l with
  | nil => rfl
  | cons a as ih => simp [pyStrLtList, ih]

theorem pyStrLtList_comparison :
    ∀ (a b c : List Char), pyStrLtList a b = true →
      pyStrLtList a c = true ∨ pyStrLtList c b = true := by
  intro a
  induction a with
  | nil =>
    intro b c h
    cases b with
    | nil => simp [pyStrLtList] at h
    | cons y bs =>
      cases c with
      | nil => exact Or.inr rfl
      | cons z cs => exact Or.inl rfl
  | cons x as ih =>
    intro b c h
    cases b with
    | nil => simp [pyStrLtList] at h
    | cons y bs =>
      cases c with
      | nil => exact Or.inr rfl
      | cons z cs =>
        simp only [pyStrLtList] at h ⊢
        by_cases h1 : x.toNat < y.toNat
        · rcases Nat.lt_trichotomy x.toNat z.toNat with hxz | hxz | hxz
          · exact Or.inl (by rw [if_pos hxz])
          · exact Or.inr (by rw [if_pos (by omega)])
          · exact Or.inr (by rw [if_pos (by omega)])
        · by_cases h2 : y.toNat < x.toNat
          · rw [if_neg h1, if_pos h2] at h
            exact absurd h (by simp)
          · rw [if_neg h1, if_neg h2] at h
            rcases Nat.lt_trichotomy x.toNat z.toNat with hxz | hxz | hxz
            · exact Or.inl (by rw [if_pos hxz])
            · rcases ih bs cs h with h3 | h3
              · refine Or.inl ?_
                rw [if_neg (by omega), if_neg (by omega)]
                exact h3
              · refine Or.inr ?_
                rw [if_neg (by omega), if_neg (by omega)]
                exact h3
            · exact Or.inr (by rw [if_pos (by omega)])

theorem pyStrLtList_asymm :
    ∀ {a b : List Char}, pyStrLtList a b = true → pyStrLtList b a = false := by
  intro a
  induction a with
  | nil =>
    intro b h
    cases b with
    | nil => simp [pyStrLtList] at h
    | cons y bs => rfl
  | cons x as ih =>
    intro b h
    cases b with
    | nil => simp [pyStrLtList] at h
    | cons y bs =>
      simp only [pyStrLtList] at h ⊢
      by_cases h1 : x.toNat < y.toNat
      · rw [if_neg (by omega), if_pos h1]
      · by_cases h2 : y.toNat < x.toNat
        · rw [if_neg h1, if_pos h2] at h
          exact absurd h (by simp)
        · rw [if_neg h1, if_neg h2] at h
          rw [if_neg h2, if_neg h1]
          exact ih h

theorem pyStrLt_irrefl (a : String) : pyStrLt a a = false :=
  pyStrLtList_irrefl a.data

theorem pyStrLt_asymm {a b : String} (h : pyStrLt a b = true) : pyStrLt b a = false :=
  pyStrLtList_asymm h

theorem pyStrLt_neg_trans {x s m : String}
    (h1 : pyStrLt x s = false) (h2 : pyStrLt s m = false) : pyStrLt x m = false := by
  cases hxm : pyStrLt x m with
  | false => rfl
  | true =>
    rcases pyStrLtList_comparison x.data m.data s.data hxm with h | h
    · rw [show pyStrLtList x.data s.data = pyStrLt x s from rfl, h1] at h
      exact absurd h (by simp)
    · rw [show pyStrLtList s.data m.data = pyStrLt s m from rfl, h2] at h
      exact absurd h (by simp)

theorem pyMinStep_not_lt_left (x y : String) :
    pyStrLt x (if pyStrLt y x then y else x) = false := by
  by_cases h : pyStrLt y x = true
  · rw [if_pos h]
    exact pyStrLt_asymm h
  · rw [if_neg h]
    exact pyStrLt_irrefl x

theorem pyMinStep_not_lt_right (x y : String) :
    pyStrLt y (if pyStrLt y x then y else x) = false := by
  by_cases h : pyStrLt y x = true
  · rw [if_pos h]
    exact pyStrLt_irrefl y
  · rw [if_neg h]
    exact Bool.eq_false_iff.mpr h

theorem foldlMin_mem (xs : List String) :
    ∀ x : String,
      xs.foldl (fun best item => if pyStrLt item best then item else best) x ∈ x :: xs := by
  induction xs with
  | nil => intro x; simp
  | cons y ys ih =>
    intro x
    have h := ih (if pyStrLt y x then y else x)
    simp only [List.foldl_cons]
    rcases List.mem_cons.mp h with h1 | h1
    · rw [h1]
      by_cases hyx : pyStrLt y x = true
      · rw [if_pos hyx]; exact List.mem_cons_of_mem _ (List.mem_cons_self _ _)
      · rw [if_neg hyx]; exact List.mem_cons_self _ _
    · exact List.mem_cons_of_mem _ (List.mem_cons_of_mem _ h1)

theorem foldlMin_not_lt (xs : List String) :
    ∀ x y : String, y ∈ x :: xs →
      pyStrLt y (xs.foldl (fun best item => if pyStrLt item best then item else best) x) =
        false := by
  induction xs with
  | nil =>
    intro x y hy
    simp only [List.mem_singleton] at hy
    rw [hy]
    exact pyStrLt_irrefl x
  | cons z zs ih =>
    intro x y hy
    simp only [List.foldl_cons]
    have hstep := ih (if pyStrLt z x then z else x) (if pyStrLt z x then z else x)
      (List.mem_cons_self _ _)
    rcases List.mem_cons.mp hy with h1 | h1
    · rw [h1]
      exact pyStrLt_neg_trans (pyMinStep_not_lt_left x z) hstep
    · rcases List.mem_cons.mp h1 with h2 | h2
      · rw [h2]
        exact pyStrLt_neg_trans (pyMinStep_not_lt_right x z) hstep
      · exact ih _ _ (List.mem_cons_of_mem _ h2)

theorem pyMinD_mem {l : List String} (h : l ≠ []) : pyMinD l ∈ l := by
  cases l with
  | nil => exact absurd rfl h
  | cons x xs => exact foldlMin_mem xs x

theorem pyMinD_not_lt {l : List String} (y : String) (hy : y ∈ l) :
    pyStrLt y (pyMinD l) = false := by
  cases l with
  | nil => simp at hy
  | cons x xs => exact foldlMin_not_lt xs x y hy

/-! ## Helper lemmas: `mapM` over `Option` -/

theorem mapM_eq_some_map {α β : Type} (l : List α) (f : α → Option β) (g : α → β)
    (h : ∀ a ∈ l, f a = some (g a)) : l.mapM f = some (l.map g) := by
  induction l with
  | nil => rfl
  | cons a as ih =>
    rw [List.mapM_cons, h a (List.mem_cons_self a as),
      ih (fun b hb => h b (List.mem_cons_of_mem a hb))]
    rfl

/-! ## A total characterisation of `winnowing_fingerprint` -/

theorem windowOf_length {hs : List String} {i w : Nat} (hi : i < hs.length + 1 - w) :
    (windowOf hs i w).length = w := by
  simp only [windowOf, List.length_take, List.length_drop]
  omega

theorem windowOf_ne_nil {hs : List String} {i w : Nat} (hw : 1 ≤ w)
    (hi : i < hs.length + 1 - w) : windowOf hs i w ≠ [] := by
  have := windowOf_length hi
  intro hnil
  rw [hnil] at this
  simp at this
  omega

theorem winnowing_fingerprint_eq (text : String) (k w : Nat) (hw : 1 ≤ w) :
    winnowing_fingerprint text k w = some (fingerprintList text k w) := by
  unfold winnowing_fingerprint fingerprintList
  by_cases hlen : (denseOf text).length < k
  · simp [hlen]
  · simp only [hlen, if_false]
    exact mapM_eq_some_map _ _ _ (fun i hi =>
      pyMin_eq_some (windowOf_ne_nil hw (List.mem_range.mp hi)))

theorem fingerprintList_length (text : String) (k w : Nat) :
    (fingerprintList text k w).length =
      if (denseOf text).length < k then 0 else (hashesOf text k).length + 1 - w := by
  unfold fingerprintList
  by_cases hlen : (denseOf text).length < k <;> simp [hlen]

theorem hashesOf_length (text : String) (k : Nat) :
    (hashesOf text k).length = (denseOf text).length + 1 - k := by
  simp [hashesOf, shinglesOf]

theorem compare_self_of_fingerprint_ne_nil (text : String) (k w : Nat) (f : List String)
    (hf : winnowing_fingerprint text k w = some f) (hne : f ≠ []) :
    compare_documents text text k w = some 100 := by
  have hset : f.toFinset ≠ ∅ := fun h => hne ((List.toFinset_eq_empty_iff _).mp h)
  simp only [compare_documents, hf]
  rw [if_neg (by tauto), Finset.inter_self, Finset.union_self]
  have hcard : (0 : ℚ) < (f.toFinset.card : ℚ) := by
    have : 0 < f.toFinset.card := Finset.card_pos.mpr (Finset.nonempty_iff_ne_empty.mpr hset)
    exact_mod_cast this
  rw [div_self (ne_of_gt hcard), one_mul]

/-! ## Helper lemmas: the normalisation pipeline filters to the lowercase
letter sequence -/

theorem isPySpace_iff (c : Char) :
    isPySpace c = true ↔
      (c.toNat = 32 ∨ c.toNat = 9 ∨ c.toNat = 10 ∨ c.toNat = 13 ∨
       c.toNat = 11 ∨ c.toNat = 12) := by
  simp only [isPySpace, Bool.or_eq_true, beq_iff_eq]
  tauto

theorem isLowerAlpha_iff (c : Char) :
    isLowerAlpha c = true ↔ (97 ≤ c.toNat ∧ c.toNat ≤ 122) := by
  simp [isLowerAlpha]

theorem isPySpace_space : isPySpace ' ' = true := rfl

theorem collapseWs_space_mem (l : List Char) :
    ∀ c ∈ collapseWs l, isPySpace c = true → c = ' ' := by
  induction l using collapseWs.induct with
  | case1 => intro c hc; simp [collapseWs] at hc
  | case2 c0 h0 =>
    intro c hc _
    simpa [collapseWs, h0] using hc
  | case3 c0 h0 =>
    intro c hc hsp
    simp [collapseWs, h0] at hc
    exact absurd (hc ▸ hsp) h0
  | case4 c1 c2 cs h1 h2 ih =>
    intro c hc hsp
    rw [show collapseWs (c1 :: c2 :: cs) = collapseWs (c2 :: cs) by
      simp [collapseWs, h1, h2]] at hc
    exact ih c hc hsp
  | case5 c1 c2 cs h1 h2 ih =>
    intro c hc hsp
    rw [show collapseWs (c1 :: c2 :: cs) = ' ' :: collapseWs (c2 :: cs) by
      simp [collapseWs, h1, h2]] at hc
    rcases List.mem_cons.mp hc with h | h
    · exact h
    · exact ih c h hsp
  | case6 c1 c2 cs h1 ih =>
    intro c hc hsp
    rw [show collapseWs (c1 :: c2 :: cs) = c1 :: collapseWs (c2 :: cs) by
      simp [collapseWs, h1]] at hc
    rcases List.mem_cons.mp hc with h | h
    · exact absurd (h ▸ hsp) h1
    · exact ih c h hsp

theorem filter_nospace_dropWhile (m : List Char)
    (hm : ∀ c ∈ m, isPySpace c = true → c = ' ') :
    (m.dropWhile isPySpace).filter (fun c => !(c == ' ')) =
      m.filter (fun c => !(c == ' ')) := by
  induction m with
  | nil => rfl
  | cons c cs ih =>
    by_cases hc : isPySpace c = true
    · have hcsp : c = ' ' := hm c (List.mem_cons_self _ _) hc
      rw [List.dropWhile_cons, if_pos hc,
        ih (fun d hd => hm d (List.mem_cons_of_mem _ hd)), List.filter_cons, hcsp]
      simp
    · rw [List.dropWhile_cons, if_neg hc]

theorem filter_nospace_pyStrip (m : List Char)
    (hm : ∀ c ∈ m, isPySpace c = true → c = ' ') :
    (pyStrip m).filter (fun c => !(c == ' ')) = m.filter (fun c => !(c == ' ')) := by
  unfold pyStrip
  have h2 : ∀ c ∈ (m.dropWhile isPySpace).reverse, isPySpace c = true → c = ' ' :=
    fun c hc => hm c (List.Sublist.mem (List.mem_reverse.mp hc) (List.dropWhile_sublist _))
  rw [List.filter_reverse, filter_nospace_dropWhile _ h2, List.filter_reverse,
    List.reverse_reverse, filter_nospace_dropWhile _ hm]

theorem collapseWs_filter_nospace (l : List Char) :
    (collapseWs l).filter (fun c => !isPySpace c) = l.filter (fun c => !isPySpace c) := by
  induction l using collapseWs.induct with
  | case1 => rfl
  | case2 c0 h0 => simp [collapseWs, h0, isPySpace_space]
  | case3 c0 h0 => simp [collapseWs, h0]
  | case4 c1 c2 cs h1 h2 ih => simp [collapseWs, h1, h2, ih]
  | case5 c1 c2 cs h1 h2 ih => simp [collapseWs, h1, h2, ih, isPySpace_space]
  | case6 c1 c2 cs h1 ih => simp [collapseWs, h1, ih]

theorem collapseWs_filter_eq (l : List Char) :
    (collapseWs l).filter (fun c => !(c == ' ')) =
      (collapseWs l).filter (fun c => !isPySpace c) := by
  apply List.filter_congr
  intro c hc
  by_cases hsp : isPySpace c = true
  · rw [collapseWs_space_mem l c hc hsp]
    decide
  · have hsp' : isPySpace c = false := by revert hsp; cases isPySpace c <;> simp
    have hne : (c == ' ') = false := by
      cases hceq : (c == ' ') with
      | false => rfl
      | true =>
        have hcs : c = ' ' := by simpa using hceq
        rw [hcs] at hsp'
        exact absurd hsp' (by decide)
    rw [hne, hsp']

theorem norm_filter_pred (c : Char) :
    ((!isPySpace c) && (isLowerAlpha c || isPySpace c)) = isLowerAlpha c := by
  cases hsp : isPySpace c with
  | true =>
    have hn := (isPySpace_iff c).mp hsp
    have hla : isLowerAlpha c = false := by
      refine Bool.eq_false_iff.mpr ?_
      intro hla
      rw [isLowerAlpha_iff] at hla
      omega
    simp [hla]
  | false => simp

theorem denseOf_eq_underlyingLetters (text : String) :
    denseOf text = underlyingLetters text := by
  unfold denseOf underlyingLetters
  rw [filter_nospace_pyStrip _ (collapseWs_space_mem _), collapseWs_filter_eq,
    collapseWs_filter_nospace, List.filter_filter]
  exact List.filter_congr (fun c _ => norm_filter_pred c)

/-! ## Claim C5 -/

/-- C5: for every text whose normalised, whitespace-stripped form has
length strictly less than `k`, and for every window size, the
fingerprinting operation returns an empty fingerprint (the early-return
branch), without raising an error. -/
theorem c5_short_text_empty_fingerprint (text : String) (k w : Nat)
    (h : (denseOf text).length < k) :
    winnowing_fingerprint text k w = some [] := by
  unfold winnowing_fingerprint
  rw [if_pos h]

theorem c5_short_text_empty_fingerprint_witness :
    (denseOf "Hi!").length < 5 ∧ winnowing_fingerprint "Hi!" 5 0 = some [] :=
  ⟨by decide, c5_short_text_empty_fingerprint "Hi!" 5 0 (by decide)⟩

/-! ## Claim C7 -/

/-- C7: for all texts and all parameters `k`, `w` (any naturals, the
degenerate `w = 0` error case included), comparison is symmetric:
`compare_documents doc1 doc2 k w = compare_documents doc2 doc1 k w`. -/
theorem c7_compare_symmetric (doc1 doc2 : String) (k w : Nat) :
    compare_documents doc1 doc2 k w = compare_documents doc2 doc1 k w := by
  cases h1 : winnowing_fingerprint doc1 k w with
  | none =>
    cases h2 : winnowing_fingerprint doc2 k w with
    | none => simp [compare_documents, h1, h2]
    | some f2 => simp [compare_documents, h1, h2]
  | some f1 =>
    cases h2 : winnowing_fingerprint doc2 k w with
    | none => simp [compare_documents, h1, h2]
    | some f2 =>
      simp only [compare_documents, h1, h2]
      exact if_congr (or_comm) rfl (by rw [Finset.inter_comm, Finset.union_comm])

/-! ## Claim C9 -/

/-- C9: two texts with the same underlying letter sequence (equal up to
letter case and up to insertion/removal of non-letter characters such as
punctuation, digits and whitespace) have identical fingerprints, and
hence identical similarity scores against any third document. -/
theorem c9_normalization_invariance (tA tB : String) (k w : Nat)
    (h : underlyingLetters tA = underlyingLetters tB) :
    winnowing_fingerprint tA k w = winnowing_fingerprint tB k w ∧
      ∀ b : String,
        compare_documents tA b k w = compare_documents tB b k w ∧
        compare_documents b tA k w = compare_documents b tB k w := by
  have hd : denseOf tA = denseOf tB := by
    rw [denseOf_eq_underlyingLetters, denseOf_eq_underlyingLetters, h]
  have hwf : winnowing_fingerprint tA k w = winnowing_fingerprint tB k w := by
    unfold winnowing_fingerprint hashesOf
    rw [hd]
  refine ⟨hwf, fun b => ⟨?_, ?_⟩⟩
  · unfold compare_documents
    rw [hwf]
  · unfold compare_documents
    rw [hwf]

theorem c9_normalization_invariance_witness :
    underlyingLetters "Hello, World!" = underlyingLetters "hello world" ∧
      winnowing_fingerprint "Hello, World!" 5 4 = winnowing_fingerprint "hello world" 5 4 :=
  ⟨by decide, (c9_normalization_invariance "Hello, World!" "hello world" 5 4 (by decide)).1⟩

/-! ## Claim C6 -/

/-- C6: whenever either document's fingerprint set is empty, comparison
returns exactly `0.0` (a defined value, not a failure), and the division
by the union's cardinality is never reached with an empty union: an
empty union also lands in the `0.0` guard branch. -/
theorem c6_empty_set_floor (doc1 doc2 : String) (k w : Nat) (f1 f2 : List String)
    (h1 : winnowing_fingerprint doc1 k w = some f1)
    (h2 : winnowing_fingerprint doc2 k w = some f2) :
    ((f1 = [] ∨ f2 = []) → compare_documents doc1 doc2 k w = some 0) ∧
      (f1.toFinset ∪ f2.toFinset = ∅ → compare_documents doc1 doc2 k w = some 0) := by
  have hzero : (f1 = [] ∨ f2 = []) → compare_documents doc1 doc2 k w = some 0 := by
    intro he
    have hc : f1.toFinset = ∅ ∨ f2.toFinset = ∅ := by
      rcases he with h | h
      · exact Or.inl (by rw [h]; rfl)
      · exact Or.inr (by rw [h]; rfl)
    simp only [compare_documents, h1, h2]
    rw [if_pos hc]
  refine ⟨hzero, fun hu => hzero (Or.inl ?_)⟩
  exact (List.toFinset_eq_empty_iff _).mp (Finset.union_eq_empty.mp hu).1

theorem c6_empty_set_floor_witness :
    winnowing_fingerprint "a" 5 1 = some [] ∧
      compare_documents "a" "b" 5 1 = some 0 :=
  ⟨rfl, (c6_empty_set_floor "a" "b" 5 1 [] [] rfl rfl).1 (Or.inl rfl)⟩

/-! ## Claim C2 -/

/-- C2: when both fingerprint sets are non-empty, comparison returns
exactly `100 * |F1 ∩ F2| / |F1 ∪ F2|` (the Jaccard index of the two
fingerprint sets as a percentage), and this value lies in `[0, 100]`. -/
theorem c2_jaccard_percentage (doc1 doc2 : String) (k w : Nat) (f1 f2 : List String)
    (h1 : winnowing_fingerprint doc1 k w = some f1)
    (h2 : winnowing_fingerprint doc2 k w = some f2)
    (n1 : f1 ≠ []) (n2 : f2 ≠ []) :
    ∃ q : ℚ,
      compare_documents doc1 doc2 k w = some q ∧
      q = 100 * ((f1.toFinset ∩ f2.toFinset).card : ℚ) /
            ((f1.toFinset ∪ f2.toFinset).card : ℚ) ∧
      0 ≤ q ∧ q ≤ 100 := by
  have hne1 : f1.toFinset ≠ ∅ := fun h => n1 ((List.toFinset_eq_empty_iff _).mp h)
  have hne2 : f2.toFinset ≠ ∅ := fun h => n2 ((List.toFinset_eq_empty_iff _).mp h)
  have hcond : ¬(f1.toFinset = ∅ ∨ f2.toFinset = ∅) := by tauto
  have hupos : 0 < (f1.toFinset ∪ f2.toFinset).card := by
    apply Finset.card_pos.mpr
    exact Finset.Nonempty.mono Finset.subset_union_left
      (Finset.nonempty_iff_ne_empty.mpr hne1)
  have huposq : (0 : ℚ) < ((f1.toFinset ∪ f2.toFinset).card : ℚ) := by exact_mod_cast hupos
  have hile : (f1.toFinset ∩ f2.toFinset).card ≤ (f1.toFinset ∪ f2.toFinset).card :=
    Finset.card_le_card ((Finset.inter_subset_left).trans Finset.subset_union_left)
  refine ⟨((f1.toFinset ∩ f2.toFinset).card : ℚ) /
      ((f1.toFinset ∪ f2.toFinset).card : ℚ) * 100, ?_, by ring, ?_, ?_⟩
  · simp only [compare_documents, h1, h2]
    rw [if_neg hcond]
  · positivity
  · have hdiv : ((f1.toFinset ∩ f2.toFinset).card : ℚ) /
        ((f1.toFinset ∪ f2.toFinset).card : ℚ) ≤ 1 :=
      div_le_one_of_le₀ (by exact_mod_cast hile) (le_of_lt huposq)
    calc ((f1.toFinset ∩ f2.toFinset).card : ℚ) /
          ((f1.toFinset ∪ f2.toFinset).card : ℚ) * 100
        ≤ 1 * 100 := mul_le_mul_of_nonneg_right hdiv (by norm_num)
      _ = 100 := one_mul 100

set_option maxRecDepth 40000 in
theorem c2_jaccard_percentage_witness :
    winnowing_fingerprint "ab" 2 1 = some [sha256hex ['a', 'b']] ∧
      ∃ q : ℚ, compare_documents "ab" "ab" 2 1 = some q ∧
        q = 100 * (([sha256hex ['a', 'b']].toFinset ∩ [sha256hex ['a', 'b']].toFinset).card : ℚ) /
              (([sha256hex ['a', 'b']].toFinset ∪ [sha256hex ['a', 'b']].toFinset).card : ℚ) ∧
        0 ≤ q ∧ q ≤ 100 := by
  have hwf : winnowing_fingerprint "ab" 2 1 = some [sha256hex ['a', 'b']] := by decide
  exact ⟨hwf, c2_jaccard_percentage "ab" "ab" 2 1 _ _ hwf hwf
    (List.cons_ne_nil _ _) (List.cons_ne_nil _ _)⟩

/-! ## Claim C1 -/

/-- C1: for `k ≥ 1` and `w ≥ 1` the fingerprinting operation succeeds
and returns one selected hash per window offset `i` in
`0..n-w` over the hash sequence of the `k`-length shingles of the
normalised dense string; every shingle has length exactly `k`; the entry
selected at offset `i` belongs to the window `h[i..i+w)` and no hex
value in that window is lexicographically smaller than it, so it is the
lexicographically smallest value of the window (the deterministic
tie-break); if `n < w` the result is empty. -/
theorem c1_winnowing_selects_window_minima (text : String) (k w : Nat)
    (hk : 1 ≤ k) (hw : 1 ≤ w) :
    ∃ l, winnowing_fingerprint text k w = some l ∧
      (∀ sh ∈ shinglesOf (denseOf text) k, sh.length = k) ∧
      l.length = (hashesOf text k).length + 1 - w ∧
      ((hashesOf text k).length < w → l = []) ∧
      ∀ i, ∀ hi : i < l.length,
        l.get ⟨i, hi⟩ ∈ windowOf (hashesOf text k) i w ∧
        ∀ y ∈ windowOf (hashesOf text k) i w, pyStrLt y (l.get ⟨i, hi⟩) = false := by
  refine ⟨fingerprintList text k w, winnowing_fingerprint_eq text k w hw, ?_, ?_, ?_, ?_⟩
  · intro sh hsh
    simp only [shinglesOf, List.mem_map, List.mem_range] at hsh
    obtain ⟨i, hi, rfl⟩ := hsh
    simp only [List.length_take, List.length_drop]
    omega
  · rw [fingerprintList_length]
    by_cases h : (denseOf text).length < k
    · rw [if_pos h, hashesOf_length]
      omega
    · rw [if_neg h]
  · intro hnw
    unfold fingerprintList
    by_cases h : (denseOf text).length < k
    · rw [if_pos h]
    · rw [if_neg h, show (hashesOf text k).length + 1 - w = 0 by omega]
      rfl
  · by_cases h : (denseOf text).length < k
    · intro i hi
      have hnil : fingerprintList text k w = [] := by
        unfold fingerprintList
        rw [if_pos h]
      exact absurd hi (by simp [hnil])
    · have hfl : fingerprintList text k w =
          (List.range ((hashesOf text k).length + 1 - w)).map
            (fun j => pyMinD (windowOf (hashesOf text k) j w)) := by
        unfold fingerprintList
        rw [if_neg h]
      have key : ∀ l : List String,
          l = (List.range ((hashesOf text k).length + 1 - w)).map
            (fun j => pyMinD (windowOf (hashesOf text k) j w)) →
          ∀ i, ∀ hi : i < l.length,
            l.get ⟨i, hi⟩ ∈ windowOf (hashesOf text k) i w ∧
            ∀ y ∈ windowOf (hashesOf text k) i w, pyStrLt y (l.get ⟨i, hi⟩) = false := by
        rintro l rfl i hi
        have hiw : i < (hashesOf text k).length + 1 - w := by simpa using hi
        simp only [List.get_eq_getElem, List.getElem_map, List.getElem_range]
        exact ⟨pyMinD_mem (windowOf_ne_nil hw hiw), fun y hy => pyMinD_not_lt y hy⟩
      exact key _ hfl

theorem c1_winnowing_selects_window_minima_witness :
    (1 ≤ 2 ∧ 1 ≤ 2) ∧
      ∃ l, winnowing_fingerprint "abcdef" 2 2 = some l ∧
        (∀ sh ∈ shinglesOf (denseOf "abcdef") 2, sh.length = 2) ∧
        l.length = (hashesOf "abcdef" 2).length + 1 - 2 ∧
        ((hashesOf "abcdef" 2).length < 2 → l = []) ∧
        ∀ i, ∀ hi : i < l.length,
          l.get ⟨i, hi⟩ ∈ windowOf (hashesOf "abcdef" 2) i 2 ∧
          ∀ y ∈ windowOf (hashesOf "abcdef" 2) i 2, pyStrLt y (l.get ⟨i, hi⟩) = false :=
  ⟨⟨by decide, by decide⟩,
    c1_winnowing_selects_window_minima "abcdef" 2 2 (by decide) (by decide)⟩

/-! ## Claim C4 (corrected) -/

/-- C4 counterexample: for `A = "ab"`, `k = 2`, `w = 2` the normalised
stripped length is `2 ≥ k`, yet self-comparison returns `0.0`, not
`100.0` as the claim states: there is one shingle, fewer than the window
size, so the fingerprint list is empty. -/
theorem c4_counterexample :
    2 ≤ (denseOf "ab").length ∧
      compare_documents "ab" "ab" 2 2 = some 0 ∧
      compare_documents "ab" "ab" 2 2 ≠ some 100 := by
  refine ⟨by decide, by decide, ?_⟩
  intro h
  rw [show compare_documents "ab" "ab" 2 2 = some 0 from by decide] at h
  simp at h

/-- C4 (amended): self-comparison returns exactly `100.0` whenever the
normalised stripped length is at least `k + w - 1` (so that at least one
window of shingle hashes exists), and `0.0` by the empty-set rule
whenever the length is below `k + w - 1`. -/
theorem c4_self_comparison (text : String) (k w : Nat) (hk : 1 ≤ k) (hw : 1 ≤ w) :
    (k + w - 1 ≤ (denseOf text).length → compare_documents text text k w = some 100) ∧
      ((denseOf text).length < k + w - 1 → compare_documents text text k w = some 0) := by
  have hf : winnowing_fingerprint text k w = some (fingerprintList text k w) :=
    winnowing_fingerprint_eq text k w hw
  have hflen : (fingerprintList text k w).length =
      if (denseOf text).length < k then 0 else (denseOf text).length + 1 - k + 1 - w := by
    rw [fingerprintList_length]
    by_cases h : (denseOf text).length < k
    · simp [h]
    · simp [h, hashesOf_length]
  constructor
  · intro hL
    have hfne : fingerprintList text k w ≠ [] := by
      have hpos : 0 < (fingerprintList text k w).length := by
        rw [hflen, if_neg (by omega)]
        omega
      exact List.ne_nil_of_length_pos hpos
    have hne : (fingerprintList text k w).toFinset ≠ ∅ :=
      fun h => hfne ((List.toFinset_eq_empty_iff _).mp h)
    simp only [compare_documents, hf]
    rw [if_neg (by tauto), Finset.inter_self, Finset.union_self]
    have hcard : (0 : ℚ) < ((fingerprintList text k w).toFinset.card : ℚ) := by
      have : 0 < (fingerprintList text k w).toFinset.card :=
        Finset.card_pos.mpr (Finset.nonempty_iff_ne_empty.mpr hne)
      exact_mod_cast this
    rw [div_self (ne_of_gt hcard), one_mul]
  · intro hL
    have hfe : fingerprintList text k w = [] := by
      apply List.eq_nil_of_length_eq_zero
      rw [hflen]
      by_cases h : (denseOf text).length < k
      · rw [if_pos h]
      · rw [if_neg h]
        omega
    simp only [compare_documents, hf, hfe]
    simp

theorem c4_self_comparison_witness :
    (1 ≤ 1 ∧ 1 ≤ 1 ∧ 1 + 1 - 1 ≤ (denseOf "abc").length) ∧
      compare_documents "abc" "abc" 1 1 = some 100 :=
  ⟨⟨by decide, by decide, by decide⟩,
    (c4_self_comparison "abc" 1 1 (by decide) (by decide)).1 (by decide)⟩

/-! ## Claim C3 (code bug: no parameter validation) -/

set_option maxRecDepth 40000 in
/-- C3, evaluated at the failing input: the code performs no validation
of `k` and `window_size`. With `k = 0 < 1` and `window_size = 1` the
fingerprinting operation completes normally, hashing empty shingles, and
self-comparison returns a normal similarity of `100.0` instead of
rejecting the parameters; with `window_size = 0 < 1` the fingerprinting
operation dies with an uncaught `ValueError` from `min([])` (modelled as
`none`) after hashing the shingles, which is neither a clean rejection
nor a fail-fast check. -/
theorem c3_no_parameter_rejection :
    winnowing_fingerprint "ab" 0 1 = some [sha256hex [], sha256hex [], sha256hex []] ∧
      compare_documents "ab" "ab" 0 1 = some 100 ∧
      winnowing_fingerprint "ab" 2 0 = none := by
  have hwf : winnowing_fingerprint "ab" 0 1 =
      some [sha256hex [], sha256hex [], sha256hex []] := by decide
  exact ⟨hwf,
    compare_self_of_fingerprint_ne_nil "ab" 0 1 _ hwf (List.cons_ne_nil _ _),
    by decide⟩

/-! ## Claim C10 (corrected) -/

set_option maxRecDepth 40000 in
/-- C10 counterexample: the value returned by the fingerprinting
operation is a list, not a set: for text `"aaaa"`, `k = 1`, `w = 2` all
four shingles are `"a"`, every window selects the same hash, and the
returned list contains that hash three times, so the selected hash does
not appear at most once in the returned value. -/
theorem c10_counterexample :
    winnowing_fingerprint "aaaa" 1 2 =
      some [sha256hex ['a'], sha256hex ['a'], sha256hex ['a']] ∧
      ¬ List.Nodup [sha256hex ['a'], sha256hex ['a'], sha256hex ['a']] :=
  ⟨by decide, fun hnd => (List.nodup_cons.mp hnd).1 (List.mem_cons_self _ _)⟩

/-- Claim-side definition for the amended C10: the Jaccard percentage of
two fingerprint sets with the empty-set guard, as a function of the sets
alone. -/
def jaccardScore (F1 F2 : Finset String) : ℚ :=
  if F1 = ∅ ∨ F2 = ∅ then 0
  else ((F1 ∩ F2).card : ℚ) / ((F1 ∪ F2).card : ℚ) * 100

/-- C10 (amended): the fingerprinting operation returns a list in which
a selected hash may appear several times (one entry per window); set
semantics are applied by the comparison operation, whose result depends
on the fingerprint lists only through the sets they convert to, where
duplicates collapse. -/
theorem c10_set_semantics_in_compare (doc1 doc2 : String) (k w : Nat)
    (f1 f2 : List String)
    (h1 : winnowing_fingerprint doc1 k w = some f1)
    (h2 : winnowing_fingerprint doc2 k w = some f2) :
    compare_documents doc1 doc2 k w = some (jaccardScore f1.toFinset f2.toFinset) := by
  simp only [compare_documents, h1, h2, jaccardScore]
  split_ifs <;> rfl

set_option maxRecDepth 40000 in
theorem c10_set_semantics_in_compare_witness :
    winnowing_fingerprint "aaaa" 1 2 =
        some [sha256hex ['a'], sha256hex ['a'], sha256hex ['a']] ∧
      compare_documents "aaaa" "aaaa" 1 2 =
        some (jaccardScore [sha256hex ['a'], sha256hex ['a'], sha256hex ['a']].toFinset
          [sha256hex ['a'], sha256hex ['a'], sha256hex ['a']].toFinset) := by
  have hwf : winnowing_fingerprint "aaaa" 1 2 =
      some [sha256hex ['a'], sha256hex ['a'], sha256hex ['a']] := by decide
  exact ⟨hwf, c10_set_semantics_in_compare "aaaa" "aaaa" 1 2 _ _ hwf hwf⟩

/-! ## Claim C8: helper lemmas about the pair enumeration -/

theorem pairIndices_mem (n : Nat) (p : Nat × Nat) :
    p ∈ pairIndices n ↔ p.1 < p.2 ∧ p.2 < n := by
  cases p with
  | mk i j =>
    simp only [pairIndices, List.mem_flatMap, List.mem_map, List.mem_range, List.mem_range'_1]
    constructor
    · rintro ⟨a, ha, b, hb, heq⟩
      cases heq
      refine ⟨by omega, by omega⟩
    · rintro ⟨hij, hjn⟩
      exact ⟨i, by omega, j, ⟨by omega, by omega⟩, rfl⟩

theorem list_sum_range_map (f : Nat → Nat) :
    ∀ n : Nat, ((List.range n).map f).sum = ∑ i ∈ Finset.range n, f i := by
  intro n
  induction n with
  | zero => rfl
  | succ m ih =>
    rw [List.range_succ, List.map_append, List.sum_append, Finset.sum_range_succ, ih]
    simp

theorem pairIndices_length (n : Nat) :
    (pairIndices n).length = n * (n - 1) / 2 := by
  have h1 : (pairIndices n).length = ((List.range n).map (fun i => n - 1 - i)).sum := by
    rw [pairIndices, List.flatMap, List.length_flatten, List.map_map]
    congr 1
    apply List.map_congr_left
    intro a _
    simp only [Function.comp_apply, List.length_map, List.length_range']
    omega
  rw [h1, list_sum_range_map]
  rw [Finset.sum_range_reflect (fun i => i) n]
  exact Finset.sum_range_id n

theorem pairIndices_pairwise (n : Nat) :
    (pairIndices n).Pairwise (fun p q : Nat × Nat =>
      p.1 < q.1 ∨ (p.1 = q.1 ∧ p.2 < q.2)) := by
  rw [pairIndices, List.pairwise_flatMap]
  constructor
  · intro a _
    rw [List.pairwise_map]
    exact (List.pairwise_lt_range' _ _).imp (fun h => Or.inr ⟨rfl, h⟩)
  · refine (List.pairwise_lt_range n).imp ?_
    intro a b hab x hx y hy
    simp only [List.mem_map] at hx hy
    obtain ⟨j, _, rfl⟩ := hx
    obtain ⟨j2, _, rfl⟩ := hy
    exact Or.inl hab

theorem pairIndices_nodup (n : Nat) : (pairIndices n).Nodup := by
  refine (pairIndices_pairwise n).imp ?_
  rintro ⟨i, j⟩ ⟨i2, j2⟩ h heq
  cases heq
  rcases h with h | ⟨_, h⟩ <;> omega

theorem compare_documents_isSome (doc1 doc2 : String) (k w : Nat) (hw : 1 ≤ w) :
    ∃ q, compare_documents doc1 doc2 k w = some q := by
  have h1 := winnowing_fingerprint_eq doc1 k w hw
  have h2 := winnowing_fingerprint_eq doc2 k w hw
  simp only [compare_documents, h1, h2]
  by_cases hc : (fingerprintList doc1 k w).toFinset = ∅ ∨
      (fingerprintList doc2 k w).toFinset = ∅
  · exact ⟨0, by rw [if_pos hc]⟩
  · exact ⟨_, by rw [if_neg hc]⟩

theorem detectBody_eq_some (documents : List Document) (k w : Nat) (hw : 1 ≤ w)
    (p : Nat × Nat) (h1 : p.1 < documents.length) (h2 : p.2 < documents.length) :
    ∃ r, detectBody documents k w p = some r ∧
      r.doc1_index = p.1 ∧ r.doc2_index = p.2 := by
  obtain ⟨d1, hd1⟩ : ∃ d, documents[p.1]? = some d :=
    ⟨documents[p.1], List.getElem?_eq_getElem h1⟩
  obtain ⟨d2, hd2⟩ : ∃ d, documents[p.2]? = some d :=
    ⟨documents[p.2], List.getElem?_eq_getElem h2⟩
  obtain ⟨q, hq⟩ := compare_documents_isSome d1.text d2.text k w hw
  refine ⟨⟨p.1, p.2, d1.name, d2.name, q⟩, ?_, rfl, rfl⟩
  simp [detectBody, hd1, hd2, hq]

/-- C8: for every document list and `w ≥ 1`, the batch operation
succeeds and returns exactly `N * (N - 1) / 2` pair results, whose index
pairs are in strictly ascending lexicographic `(i, j)` order with no
repetition, cover exactly the pairs `i < j < N`, and each result has
`doc1_index < doc2_index`. -/
theorem c8_batch_covers_all_pairs (documents : List Document) (k w : Nat) (hw : 1 ≤ w) :
    ∃ rs, detect_plagiarism documents k w = some rs ∧
      rs.length = documents.length * (documents.length - 1) / 2 ∧
      (rs.map fun r => (r.doc1_index, r.doc2_index)).Pairwise
        (fun p q => p.1 < q.1 ∨ (p.1 = q.1 ∧ p.2 < q.2)) ∧
      (rs.map fun r => (r.doc1_index, r.doc2_index)).Nodup ∧
      (∀ i j : Nat, (i, j) ∈ rs.map (fun r => (r.doc1_index, r.doc2_index)) ↔
        i < j ∧ j < documents.length) ∧
      ∀ r ∈ rs, r.doc1_index < r.doc2_index := by
  have hsome : ∀ p ∈ pairIndices documents.length, detectBody documents k w p =
      some ((detectBody documents k w p).getD ⟨0, 0, "", "", 0⟩) := by
    intro p hp
    have hm := (pairIndices_mem documents.length p).mp hp
    obtain ⟨r, hr, _, _⟩ := detectBody_eq_some documents k w hw p (by omega) (by omega)
    rw [hr]
    rfl
  have hmapM : detect_plagiarism documents k w =
      some ((pairIndices documents.length).map
        (fun p => (detectBody documents k w p).getD ⟨0, 0, "", "", 0⟩)) :=
    mapM_eq_some_map _ _ _ hsome
  have hidx : ∀ p ∈ pairIndices documents.length,
      (fun r : PairResult => (r.doc1_index, r.doc2_index))
          ((detectBody documents k w p).getD ⟨0, 0, "", "", 0⟩) = p := by
    intro p hp
    have hm := (pairIndices_mem documents.length p).mp hp
    obtain ⟨r, hr, hr1, hr2⟩ := detectBody_eq_some documents k w hw p (by omega) (by omega)
    rw [hr]
    simp only [Option.getD_some, hr1, hr2]
  have hmapidx : ((pairIndices documents.length).map
      (fun p => (detectBody documents k w p).getD ⟨0, 0, "", "", 0⟩)).map
        (fun r => (r.doc1_index, r.doc2_index)) = pairIndices documents.length := by
    rw [List.map_map]
    exact (List.map_congr_left hidx).trans (List.map_id _)
  refine ⟨_, hmapM, ?_, ?_, ?_, ?_, ?_⟩
  · rw [List.length_map, pairIndices_length]
  · rw [hmapidx]
    exact pairIndices_pairwise documents.length
  · rw [hmapidx]
    exact pairIndices_nodup documents.length
  · intro i j
    rw [hmapidx]
    exact pairIndices_mem documents.length (i, j)
  · intro r hr
    simp only [List.mem_map] at hr
    obtain ⟨p, hp, rfl⟩ := hr
    have hm := (pairIndices_mem documents.length p).mp hp
    obtain ⟨r2, hr2, h1, h2⟩ := detectBody_eq_some documents k w hw p (by omega) (by omega)
    rw [hr2]
    simp only [Option.getD_some, h1, h2]
    omega

theorem c8_batch_covers_all_pairs_witness :
    (1 ≤ 1) ∧
      ∃ rs, detect_plagiarism [⟨"d1", "a"⟩, ⟨"d2", "b"⟩, ⟨"d3", "c"⟩] 5 1 = some rs ∧
        rs.length = ([⟨"d1", "a"⟩, ⟨"d2", "b"⟩, ⟨"d3", "c"⟩] : List Document).length *
            (([⟨"d1", "a"⟩, ⟨"d2", "b"⟩, ⟨"d3", "c"⟩] : List Document).length - 1) / 2 ∧
        (rs.map fun r => (r.doc1_index, r.doc2_index)).Pairwise
          (fun p q => p.1 < q.1 ∨ (p.1 = q.1 ∧ p.2 < q.2)) ∧
        (rs.map fun r => (r.doc1_index, r.doc2_index)).Nodup ∧
        (∀ i j : Nat, (i, j) ∈ rs.map (fun r => (r.doc1_index, r.doc2_index)) ↔
          i < j ∧ j < ([⟨"d1", "a"⟩, ⟨"d2", "b"⟩, ⟨"d3", "c"⟩] : List Document).length) ∧
        ∀ r ∈ rs, r.doc1_index < r.doc2_index :=
  ⟨by decide, c8_batch_covers_all_pairs [⟨"d1", "a"⟩, ⟨"d2", "b"⟩, ⟨"d3", "c"⟩] 5 1 (by decide)⟩

end WinnowApp

